import Mathlib

/-!
A shallow embedding of the rewrite engine of `cattool.py` (the WWT core
dataset catalog tool): the imageset store and its shard rewrite, the place
store and its shard rewrite (partition keys and intra-shard sort keys), the
directory-swap commit step, and the attribute-splitting XML prettifier.

Python strings are modelled as Lean `String`s (compared by code point,
as CPython compares `str`), Python floats carrying catalog coordinates as
`ℚ`, Python `dict`s as insertion-ordered association lists, and fallible
steps as `Except`.
-/

namespace Cattool

/-! ## Generic order machinery

CPython compares lists and tuples lexicographically: scan for the first
index whose elements are not `==`-equal, and compare those two elements
with `<`; if one sequence is a prefix of the other, the shorter one is
smaller.  `lexLt` is that algorithm for an element order given as a `Bool`
valued strict comparison. -/

def lexLt {α : Type} [DecidableEq α] (lt : α → α → Bool) : List α → List α → Bool
  | [], [] => false
  | [], _ :: _ => true
  | _ :: _, [] => false
  | a :: as, b :: bs => if a = b then lexLt lt as bs else lt a b

/-- Hypotheses making a `Bool` comparison a strict linear order: it is
irreflexive, transitive, and any two unrelated elements are equal. -/
structure StrictOrd {α : Type} [DecidableEq α] (lt : α → α → Bool) : Prop where
  irrefl : ∀ a, lt a a = false
  trans : ∀ a b c, lt a b = true → lt b c = true → lt a c = true
  conn : ∀ a b, lt a b = false → lt b a = false → a = b

theorem StrictOrd.asymm {α : Type} [DecidableEq α] {lt : α → α → Bool}
    (h : StrictOrd lt) {a b : α} (hab : lt a b = true) : lt b a = false := by
  by_contra hba
  have hba' : lt b a = true := by
    cases hv : lt b a with
    | false => exact absurd hv hba
    | true => rfl
  exact absurd (h.irrefl a) (by simp [h.trans a b a hab hba'])

theorem lexLt_irrefl {α : Type} [DecidableEq α] (lt : α → α → Bool) :
    ∀ l, lexLt lt l l = false := by
  intro l
  induction l with
  | nil => rfl
  | cons a as ih => simp [lexLt, ih]

theorem lexLt_trans {α : Type} [DecidableEq α] {lt : α → α → Bool}
    (h : StrictOrd lt) :
    ∀ l₁ l₂ l₃, lexLt lt l₁ l₂ = true → lexLt lt l₂ l₃ = true →
      lexLt lt l₁ l₃ = true := by
  intro l₁
  induction l₁ with
  | nil =>
    intro l₂ l₃ h12 h23
    cases l₂ with
    | nil => simpa [lexLt] using h23
    | cons b bs =>
      cases l₃ with
      | nil => simp [lexLt] at h23
      | cons c cs => simp [lexLt]
  | cons a as ih =>
    intro l₂ l₃ h12 h23
    cases l₂ with
    | nil => simp [lexLt] at h12
    | cons b bs =>
      cases l₃ with
      | nil => simp [lexLt] at h23
      | cons c cs =>
        simp only [lexLt] at h12 h23 ⊢
        by_cases hab : a = b
        · subst hab
          simp only [if_pos rfl] at h12
          by_cases hbc : a = c
          · subst hbc
            simp only [if_pos rfl] at h23 ⊢
            exact ih bs cs h12 h23
          · simp only [if_neg hbc] at h23 ⊢
            exact h23
        · simp only [if_neg hab] at h12
          by_cases hbc : b = c
          · subst hbc
            simp only [if_neg hab]
            exact h12
          · simp only [if_neg hbc] at h23
            by_cases hac : a = c
            · subst hac
              exact absurd (h.asymm h12) (by simp [h23])
            · simp only [if_neg hac]
              exact h.trans a b c h12 h23

theorem lexLt_conn {α : Type} [DecidableEq α] {lt : α → α → Bool}
    (h : StrictOrd lt) :
    ∀ l₁ l₂, lexLt lt l₁ l₂ = false → lexLt lt l₂ l₁ = false → l₁ = l₂ := by
  intro l₁
  induction l₁ with
  | nil =>
    intro l₂ h12 _
    cases l₂ with
    | nil => rfl
    | cons b bs => simp [lexLt] at h12
  | cons a as ih =>
    intro l₂ h12 h21
    cases l₂ with
    | nil => simp [lexLt] at h21
    | cons b bs =>
      simp only [lexLt] at h12 h21
      by_cases hab : a = b
      · subst hab
        simp only [if_pos rfl] at h12 h21
        exact congrArg (a :: ·) (ih bs h12 h21)
      · have hba : ¬ b = a := fun hba => hab hba.symm
        simp only [if_neg hab] at h12
        simp only [if_neg hba] at h21
        exact absurd (h.conn a b h12 h21) hab

theorem lexLt_strictOrd {α : Type} [DecidableEq α] {lt : α → α → Bool}
    (h : StrictOrd lt) : StrictOrd (lexLt lt) :=
  ⟨lexLt_irrefl lt, lexLt_trans h, lexLt_conn h⟩

/-- Non-strict order `a ≤ b` derived from a strict comparison as `¬ b < a`;
this is the ordering relation a Python stable sort realizes. -/
theorem StrictOrd.le_trans {α : Type} [DecidableEq α] {lt : α → α → Bool}
    (h : StrictOrd lt) {a b c : α} (hab : lt b a = false) (hbc : lt c b = false) :
    lt c a = false := by
  cases hca : lt c a with
  | false => rfl
  | true =>
    exfalso
    by_cases hab' : lt a b = true
    · exact absurd (h.trans c a b hca hab') (by simp [hbc])
    · have hab0 : lt a b = false := by
        cases hv : lt a b with
        | false => rfl
        | true => exact absurd hv hab'
      have heq : a = b := h.conn a b hab0 hab
      subst heq
      exact absurd hca (by simp [hbc])

theorem StrictOrd.le_total {α : Type} [DecidableEq α] {lt : α → α → Bool}
    (h : StrictOrd lt) (a b : α) : lt b a = false ∨ lt a b = false := by
  cases hab : lt a b with
  | false => exact Or.inr rfl
  | true => exact Or.inl (h.asymm hab)

/-! ### Character and string order (CPython `str` comparison: by code point) -/

def charLt (a b : Char) : Bool := decide (a < b)

theorem charLt_strictOrd : StrictOrd charLt := by
  refine ⟨?_, ?_, ?_⟩
  · intro a; simp [charLt]
  · intro a b c hab hbc
    simp only [charLt, decide_eq_true_eq] at hab hbc ⊢
    exact lt_trans hab hbc
  · intro a b hab hba
    simp only [charLt, decide_eq_false_iff_not, not_lt] at hab hba
    exact le_antisymm hba hab

/-- CPython string `<`, on the underlying character lists. -/
def strLt (a b : List Char) : Bool := lexLt charLt a b

theorem strLt_strictOrd : StrictOrd strLt := lexLt_strictOrd charLt_strictOrd

/-! ## Sort-key atoms

`PlaceDatabase.rewrite.sortkey` builds Python lists whose elements are
single-character strings (from `k += u`, which extends a list with the
characters of the string `u`), floats (coordinates), and one full string
(the name).  An `Atom` is one element of such a key tuple. -/

inductive Atom : Type where
  | str : List Char → Atom
  | num : ℚ → Atom
deriving DecidableEq

/-- CPython `==` between key atoms: values of different types compare
unequal (no error). -/
def atomEqB : Atom → Atom → Bool
  | .str a, .str b => decide (a = b)
  | .num a, .num b => decide (a = b)
  | _, _ => false

theorem atomEqB_iff : ∀ a b : Atom, atomEqB a b = true ↔ a = b := by
  intro a b
  cases a <;> cases b <;> simp [atomEqB]

/-- CPython `<` between key atoms: comparing a `str` with a `float`
raises `TypeError`, modelled as `Except.error`. -/
def atomLtE : Atom → Atom → Except Unit Bool
  | .str a, .str b => .ok (strLt a b)
  | .num a, .num b => .ok (decide (a < b))
  | _, _ => .error ()

/-- CPython tuple comparison of two sort keys: walk to the first
`==`-unequal position and compare there with `<` (which may raise
`TypeError` on mixed types); a strict prefix is smaller. -/
def pyListLt : List Atom → List Atom → Except Unit Bool
  | [], [] => .ok false
  | [], _ :: _ => .ok true
  | _ :: _, [] => .ok false
  | a :: as, b :: bs => if atomEqB a b then pyListLt as bs else atomLtE a b

/-- A total strict order on atoms agreeing with `atomLtE` wherever the
latter is defined (numbers are ranked before strings; that arbitrary rank
is only ever used on pairs the comparability guard has excluded). -/
def atomLt : Atom → Atom → Bool
  | .str a, .str b => strLt a b
  | .num a, .num b => decide (a < b)
  | .num _, .str _ => true
  | .str _, .num _ => false

theorem atomLt_strictOrd : StrictOrd atomLt := by
  refine ⟨?_, ?_, ?_⟩
  · intro a
    cases a with
    | str s => exact lexLt_irrefl charLt s
    | num q => simp [atomLt]
  · intro a b c hab hbc
    cases a with
    | str sa =>
      cases b with
      | str sb =>
        cases c with
        | str sc => exact lexLt_trans charLt_strictOrd _ _ _ hab hbc
        | num qc => exact absurd hbc (by simp [atomLt])
      | num qb => exact absurd hab (by simp [atomLt])
    | num qa =>
      cases b with
      | str sb =>
        cases c with
        | str sc => rfl
        | num qc => exact absurd hbc (by simp [atomLt])
      | num qb =>
        cases c with
        | str sc => rfl
        | num qc =>
          simp only [atomLt, decide_eq_true_eq] at hab hbc ⊢
          exact lt_trans hab hbc
  · intro a b hab hba
    cases a with
    | str sa =>
      cases b with
      | str sb => exact congrArg Atom.str (lexLt_conn charLt_strictOrd _ _ hab hba)
      | num qb => exact absurd hba (by simp [atomLt])
    | num qa =>
      cases b with
      | str sb => exact absurd hab (by simp [atomLt])
      | num qb =>
        simp only [atomLt, decide_eq_false_iff_not, not_lt] at hab hba
        exact congrArg Atom.num (le_antisymm hba hab)

/-- The total order on whole keys used by the sorting model. -/
def keyLt (a b : List Atom) : Bool := lexLt atomLt a b

theorem keyLt_strictOrd : StrictOrd keyLt := lexLt_strictOrd atomLt_strictOrd

/-- Wherever CPython tuple comparison succeeds, it agrees with the total
order `keyLt`. -/
theorem pyListLt_eq_keyLt :
    ∀ k₁ k₂ r, pyListLt k₁ k₂ = .ok r → keyLt k₁ k₂ = r := by
  intro k₁
  induction k₁ with
  | nil =>
    intro k₂ r hr
    cases k₂ with
    | nil =>
      simp only [pyListLt, Except.ok.injEq] at hr
      simp [keyLt, lexLt, ← hr]
    | cons b bs =>
      simp only [pyListLt, Except.ok.injEq] at hr
      simp [keyLt, lexLt, ← hr]
  | cons a as ih =>
    intro k₂ r hr
    cases k₂ with
    | nil =>
      simp only [pyListLt, Except.ok.injEq] at hr
      simp [keyLt, lexLt, ← hr]
    | cons b bs =>
      simp only [pyListLt] at hr
      by_cases hab : atomEqB a b = true
      · have hab' : a = b := (atomEqB_iff a b).mp hab
        subst hab'
        rw [if_pos hab] at hr
        simpa [keyLt, lexLt] using ih bs r hr
      · simp only [if_neg hab] at hr
        have hne : a ≠ b := fun he => hab ((atomEqB_iff a b).mpr he)
        cases a <;> cases b <;> simp_all [atomLtE, atomLt, keyLt, lexLt]

/-! ## Place-info records (`PlaceDatabase`)

A place-info record is the sparse `dict` built by `ingest_place`; only the
fields that `PlaceDatabase.rewrite` reads are carried.  A missing `dict`
key is `none`; coordinates are the float values. -/

structure Info : Type where
  data_set_type : String
  name : String
  foreground_image_set_url : Option String := none
  image_set_url : Option String := none
  background_image_set_url : Option String := none
  dec_deg : Option ℚ := none
  ra_hr : Option ℚ := none
  latitude : Option ℚ := none
  longitude : Option ℚ := none
deriving DecidableEq

/-- Errors surfaced by the rewrite model: `keyMissing` is Python's
`KeyError` from `info["ra_hr"]` / `info["longitude"]`, `typeErr` is a
`TypeError` raised while comparing sort keys. -/
inductive SErr : Type where
  | keyMissing : SErr
  | typeErr : SErr
deriving DecidableEq

/-- `sortkey` of `PlaceDatabase.rewrite` (cattool.py lines 228-252).
`k += u` on a Python list appends the characters of the string `u` one by
one; `info["ra_hr"]` and `info["longitude"]` are unconditional lookups
that raise `KeyError` when the key is absent. -/
def sortkey (info : Info) : Except SErr (List Atom) := do
  let k : List Atom := []
  let k := match info.foreground_image_set_url with
    | some u => k ++ u.data.map (fun c => Atom.str [c])
    | none => k
  let k := match info.image_set_url with
    | some u => k ++ u.data.map (fun c => Atom.str [c])
    | none => k
  let k := match info.background_image_set_url with
    | some u => k ++ u.data.map (fun c => Atom.str [c])
    | none => k
  let k ← match info.dec_deg with
    | some dec =>
      match info.ra_hr with
      | some ra => pure (k ++ [Atom.num dec, Atom.num ra])
      | none => throw SErr.keyMissing
    | none => pure k
  let k ← match info.latitude with
    | some lat =>
      match info.longitude with
      | some lon => pure (k ++ [Atom.num lat, Atom.num lon])
      | none => throw SErr.keyMissing
    | none => pure k
  pure (k ++ [Atom.str info.name.data])

/-! ### Shard (partition) keys of `PlaceDatabase.rewrite` -/

/-- `"".join`-style lowering of a string, modelling Python `str.lower`
over the ASCII range used by catalog keys. -/
def lowerStr (s : String) : String := String.mk (s.data.map Char.toLower)

/-- Python `"_".join`. -/
def joinUnderscore : List String → String
  | [] => ""
  | [x] => x
  | x :: xs => x ++ "_" ++ joinUnderscore xs

/-- Python `f"{n:02d}"` / `f"{n:03d}"`: zero-pad to a total width that
includes the sign. -/
def padInt (width : Nat) (n : Int) : String :=
  if n < 0 then "-" ++ padDigits (width - 1) n.natAbs else padDigits width n.natAbs
where
  padDigits (w : Nat) (m : Nat) : String :=
    let s := Nat.repr m
    if s.length < w then String.mk (List.replicate (w - s.length) '0') ++ s else s

/-- The `ra` component of a place shard key:
`ra = int(math.floor(ra)) % 24`, rendered `f"ra{ra:02d}"`
(cattool.py lines 215-218). -/
def raComponent (ra : ℚ) : String := "ra" ++ padInt 2 (⌊ra⌋ % 24)

/-- The `lon` component of a place shard key:
`lon = (int(math.floor(lon)) // 10) * 10`, rendered `f"lon{lon:03d}"`
(cattool.py lines 220-223); `Int` division is floor division for the
positive divisor 10, as Python `//` is. -/
def lonComponent (lon : ℚ) : String := "lon" ++ padInt 3 (⌊lon⌋ / 10 * 10)

/-- The shard (partition) key of a place-info record
(cattool.py lines 212-225). -/
def placeShardKey (info : Info) : String :=
  let k := [info.data_set_type]
  let k := match info.ra_hr with
    | some ra => k ++ [raComponent ra]
    | none => k
  let k := match info.longitude with
    | some lon => k ++ [lonComponent lon]
    | none => k
  lowerStr (joinUnderscore k)

/-! ## Grouping into shards

Both rewrites build `by_key` with `by_key.setdefault(key, []).append(x)`:
an insertion-ordered `dict` from key to the list of members in encounter
order.  Modelled as an association list updated in place. -/

def setdefaultApp {α : Type} : List (String × List α) → String → α → List (String × List α)
  | [], k, x => [(k, [x])]
  | (k', g) :: rest, k, x =>
    if k' = k then (k', g ++ [x]) :: rest else (k', g) :: setdefaultApp rest k x

def groupFold {α : Type} (key : α → String) (l : List α) : List (String × List α) :=
  l.foldl (fun acc x => setdefaultApp acc (key x) x) []

/-- Association-list lookup (`dict` access by key). -/
def lookupG {β : Type} : List (String × β) → String → Option β
  | [], _ => none
  | (k', g) :: rest, k => if k' = k then some g else lookupG rest k

theorem lookupG_setdefaultApp_same {α : Type} :
    ∀ (acc : List (String × List α)) (k : String) (x : α),
      lookupG (setdefaultApp acc k x) k = some ((lookupG acc k).getD [] ++ [x]) := by
  intro acc
  induction acc with
  | nil => intro k x; simp [setdefaultApp, lookupG]
  | cons p rest ih =>
    intro k x
    obtain ⟨k', g⟩ := p
    by_cases hk : k' = k
    · subst hk
      simp [setdefaultApp, lookupG]
    · simp [setdefaultApp, lookupG, hk, ih]

theorem lookupG_setdefaultApp_other {α : Type} :
    ∀ (acc : List (String × List α)) (k k₂ : String) (x : α), k ≠ k₂ →
      lookupG (setdefaultApp acc k x) k₂ = lookupG acc k₂ := by
  intro acc
  induction acc with
  | nil => intro k k₂ x hne; simp [setdefaultApp, lookupG, hne]
  | cons p rest ih =>
    intro k k₂ x hne
    obtain ⟨k', g⟩ := p
    by_cases hk : k' = k
    · subst hk
      simp [setdefaultApp, lookupG, hne]
    · simp [setdefaultApp, lookupG, hk, ih _ _ _ hne]

/-- What grouping computes: the group stored under `k` is exactly the
sublist of elements whose key is `k`, in encounter order. -/
theorem lookupG_groupFold {α : Type} (key : α → String) :
    ∀ (l : List α) (acc : List (String × List α)) (k : String),
      lookupG (l.foldl (fun acc x => setdefaultApp acc (key x) x) acc) k =
        match lookupG acc k, l.filter (fun x => key x == k) with
        | none, [] => none
        | none, g => some g
        | some g₀, g => some (g₀ ++ g) := by
  intro l
  induction l with
  | nil =>
    intro acc k
    cases h : lookupG acc k <;> simp [List.filter, h]
  | cons x xs ih =>
    intro acc k
    by_cases hk : key x = k
    · subst hk
      simp only [List.foldl_cons, List.filter_cons, beq_self_eq_true, if_pos rfl]
      rw [ih]
      rw [lookupG_setdefaultApp_same]
      cases h : lookupG acc (key x) <;> simp [h]
    · simp only [List.foldl_cons, List.filter_cons]
      rw [ih]
      rw [lookupG_setdefaultApp_other _ _ _ _ hk]
      have : (x :: xs).filter (fun y => key y == k) = xs.filter (fun y => key y == k) := by
        simp [List.filter_cons, hk]
      simp only [beq_iff_eq, if_neg hk]

/-! ## Sorting a place shard

`sorted(infos, key=sortkey)` first computes every element's key
(propagating `KeyError`), then stable-sorts by comparing keys with tuple
`<`.  The model computes the keys, then requires every pair of keys to be
comparable (CPython raises `TypeError` only on the pairs its sort happens
to compare; the model is exact for shards of at most two records and
conservative otherwise), then applies a stable insertion sort under the
total order `keyLt`, which agrees with tuple `<` on all comparable
pairs. -/

def exceptMapM {ε α β : Type} (f : α → Except ε β) : List α → Except ε (List β)
  | [] => .ok []
  | x :: xs => do
    let y ← f x
    let ys ← exceptMapM f xs
    pure (y :: ys)

def pairsComparable : List (List Atom) → Bool
  | [] => true
  | k :: ks => ks.all (fun k₂ => (pyListLt k k₂).isOk) && pairsComparable ks

/-- `a` may stay before `b` in the stable sort: `¬ key b < key a`. -/
def keyedLe (a b : List Atom × Info) : Prop := keyLt b.1 a.1 = false

instance : DecidableRel keyedLe := fun a b => decEq (keyLt b.1 a.1) false

instance : IsTotal (List Atom × Info) keyedLe :=
  ⟨fun a b => keyLt_strictOrd.le_total a.1 b.1⟩

instance : IsTrans (List Atom × Info) keyedLe :=
  ⟨fun _ _ _ hab hbc => keyLt_strictOrd.le_trans hab hbc⟩

def sortShard (g : List Info) : Except SErr (List Info) := do
  let keyed ← exceptMapM (fun i => (sortkey i).map (fun k => (k, i))) g
  if pairsComparable (keyed.map (·.1)) then
    pure ((List.insertionSort keyedLe keyed).map (·.2))
  else
    throw SErr.typeErr

/-- `PlaceDatabase.rewrite` up to serialization (cattool.py lines
209-259): group the held records by shard key, sort each shard by
`sortkey`, and emit the per-shard record lists keyed by file name.  Any
`KeyError`/`TypeError` escapes before the directory swap runs, so on
`error` the on-disk catalog keeps its old contents. -/
def placeRewrite (infos : List Info) : Except SErr (List (String × List Info)) :=
  exceptMapM (fun p => (sortShard p.2).map (fun g => (p.1, g)))
    (groupFold placeShardKey infos)

/-! ## Imageset store (`ImagesetDatabase`) -/

structure ImageSet : Type where
  url : String
  data_set_type : String
  reference_frame : Option String := none
  band_pass : Option String := none
deriving DecidableEq

/-- The in-memory `by_url` dict: insertion-ordered, keyed by `url`. -/
def storeLookup (db : List ImageSet) (u : String) : Option ImageSet :=
  db.find? (fun s => s.url == u)

/-- `ImagesetDatabase.add_imageset` (cattool.py lines 69-74).  The `Bool`
is whether the "dropping duplicated imageset" warning was printed; a
duplicate `url` leaves the store unchanged and no error is raised. -/
def addImageset (db : List ImageSet) (i : ImageSet) : List ImageSet × Bool :=
  if (storeLookup db i.url).isSome then (db, true) else (db ++ [i], false)

def foldAdd (db : List ImageSet) (l : List ImageSet) : List ImageSet :=
  l.foldl (fun d i => (addImageset d i).1) db

/-- The shard (partition) key of an imageset
(cattool.py lines 80-86). -/
def imagesetShardKey (s : ImageSet) : String :=
  let k := [s.data_set_type]
  let k := match s.reference_frame with
    | some rf => if rf ≠ "Sky" then k ++ [rf] else k
    | none => k
  let k := match s.band_pass with
    | some bp => k ++ [bp]
    | none => k
  lowerStr (joinUnderscore k)

/-- `sorted(imgsets, key=lambda s: s.url)`: `a` may stay before `b` iff
`¬ b.url < a.url`. -/
def urlLe (a b : ImageSet) : Prop := strLt b.url.data a.url.data = false

instance : DecidableRel urlLe := fun a b => decEq (strLt b.url.data a.url.data) false

instance : IsTotal ImageSet urlLe :=
  ⟨fun a b => strLt_strictOrd.le_total a.url.data b.url.data⟩

instance : IsTrans ImageSet urlLe :=
  ⟨fun _ _ _ hab hbc => strLt_strictOrd.le_trans hab hbc⟩

/-- `ImagesetDatabase.rewrite` up to the directory swap (cattool.py lines
76-97): group the held imagesets by shard key, sort each shard's members
by `url`, and serialize each shard to its file.  The serializer (the
external `Folder.to_xml` composed with `prettify`) enters as an explicit
function parameter. -/
def rewriteFilesWith {β : Type} (serialize : String → List ImageSet → β)
    (db : List ImageSet) : List (String × β) :=
  (groupFold imagesetShardKey db).map
    (fun p => (p.1, serialize p.1 (List.insertionSort urlLe p.2)))

/-! ## The directory swap (cattool.py lines 99-102 and 261-264)

```
olddir = Path(str(self.db_dir) + ".old")
self.db_dir.rename(olddir)
tempdir.rename(self.db_dir)
shutil.rmtree(olddir)
```

The file system is abstracted to the three paths the swap touches, each
holding (or not) a directory identified by its contents tag.  `failStep`
injects an I/O failure before the given step (1 = first rename, 2 =
second rename, 3 = rmtree); a failing step raises, leaving the state as
the previous steps left it, and the raised error is surfaced (`true` in
the second component). -/

structure FsState : Type where
  target : Option Nat
  oldSib : Option Nat
  newSib : Option Nat
deriving DecidableEq

def atomicSwap (fs : FsState) (failStep : Option Nat) : FsState × Bool :=
  if failStep = some 1 then (fs, true)
  else
    let fs₁ : FsState := ⟨none, fs.target, fs.newSib⟩
    if failStep = some 2 then (fs₁, true)
    else
      let fs₂ : FsState := ⟨fs₁.newSib, fs₁.oldSib, none⟩
      if failStep = some 3 then (fs₂, true)
      else (⟨fs₂.target, none, fs₂.newSib⟩, false)

/-! ## The attribute-splitting serializer (`prettify`, cattool.py 299-352)

The three regexes applied to each serialized line:

* `START_ATTR_TAG_RE = ^(\s*)<([-_a-zA-Z0-9]+)\s`
* `ATTR_RE = ^\s*(\w+)="([^"]*)"`
* `ATTRS_DONE_RE = ^\s*(/?)>$`

Each is deterministic (no character class overlaps its successor), so a
hand-rolled scanner over the character list is an exact model. -/

/-- Python `\s` over ASCII. -/
def pyIsSpace (c : Char) : Bool :=
  c = ' ' || c = '\t' || c = '\n' || c = '\r' || c = '\x0b' || c = '\x0c'

/-- The tag-name class `[-_a-zA-Z0-9]`. -/
def isTagChar (c : Char) : Bool := c = '-' || c = '_' || c.isAlpha || c.isDigit

/-- Python `\w` over ASCII. -/
def isWordChar (c : Char) : Bool := c.isAlpha || c.isDigit || c = '_'

/-- `START_ATTR_TAG_RE.match(line)`: on success, the captured indentation,
the captured tag name, and the remainder of the line after `m.end()`
(i.e. after the single whitespace character closing the match). -/
def matchStartTag (l : List Char) : Option (List Char × List Char × List Char) :=
  match l.dropWhile pyIsSpace with
  | '<' :: r₁ =>
    if (r₁.takeWhile isTagChar).isEmpty then none
    else
      match r₁.dropWhile isTagChar with
      | c :: r₂ =>
        if pyIsSpace c then
          some (l.takeWhile pyIsSpace, r₁.takeWhile isTagChar, r₂)
        else none
      | [] => none
  | _ => none

/-- Python `str.rstrip()`. -/
def rstrip (l : List Char) : List Char := (l.reverse.dropWhile pyIsSpace).reverse

/-- `ATTRS_DONE_RE.match(attr_text)`: `some b` when the text is only an
ending marker, `b` reporting the self-ending `/`. -/
def matchAttrsDone (l : List Char) : Option Bool :=
  match l.dropWhile pyIsSpace with
  | c :: rest =>
    if c = '>' ∧ rest = [] then some false
    else if c = '/' ∧ rest = ['>'] then some true
    else none
  | [] => none

/-- `ATTR_RE.match(attr_text)`: one `name="value"` pair and the rest of
the text. -/
def matchAttr (l : List Char) : Option (List Char × List Char × List Char) :=
  if ((l.dropWhile pyIsSpace).takeWhile isWordChar).isEmpty then none
  else
    match (l.dropWhile pyIsSpace).dropWhile isWordChar with
    | '=' :: '"' :: r₂ =>
      match r₂.dropWhile (fun c => !(c = '"')) with
      | '"' :: r₃ =>
        some ((l.dropWhile pyIsSpace).takeWhile isWordChar,
          r₂.takeWhile (fun c => !(c = '"')), r₃)
      | _ => none
    | _ => none

/-- Fatal conditions of the attribute chomping loop: an `assert` firing on
unparseable attribute text, or on a duplicate attribute name. -/
inductive PErr : Type where
  | malformed : PErr
  | dupAttr : PErr
deriving DecidableEq

/-- The `while m_done is None` loop of `prettify`.  Fuel is structural
bookkeeping only: a successful `ATTR_RE` match consumes at least four
characters, so `text.length + 1` units never run out; the `fuel = 0`
branch is unreachable from `prettifyLine`. -/
def chompAttrs : Nat → List Char → List (List Char × List Char) →
    Except PErr (List (List Char × List Char) × Bool)
  | 0, text, attrs =>
    match matchAttrsDone text with
    | some selfEnding => .ok (attrs, selfEnding)
    | none => .error .malformed
  | fuel + 1, text, attrs =>
    match matchAttrsDone text with
    | some selfEnding => .ok (attrs, selfEnding)
    | none =>
      match matchAttr text with
      | none => .error .malformed
      | some (name, val, rest) =>
        if attrs.any (fun p => p.1 = name) then .error .dupAttr
        else chompAttrs fuel rest (attrs ++ [(name, val)])

/-- `sorted(attrs.items())`: tuple order on `(name, value)` pairs. -/
def attrPairLt (a b : List Char × List Char) : Bool :=
  if a.1 = b.1 then strLt a.2 b.2 else strLt a.1 b.1

theorem attrPairLt_strictOrd : StrictOrd attrPairLt := by
  refine ⟨?_, ?_, ?_⟩
  · intro a
    simp [attrPairLt, strLt, lexLt_irrefl charLt]
  · intro a b c hab hbc
    simp only [attrPairLt] at hab hbc ⊢
    by_cases h1 : a.1 = b.1
    · rw [if_pos h1] at hab
      by_cases h2 : b.1 = c.1
      · rw [if_pos h2] at hbc
        rw [if_pos (h1.trans h2)]
        exact lexLt_trans charLt_strictOrd _ _ _ hab hbc
      · rw [if_neg h2] at hbc
        rw [h1, if_neg h2]
        exact hbc
    · rw [if_neg h1] at hab
      by_cases h2 : b.1 = c.1
      · rw [← h2, if_neg h1]
        exact hab
      · rw [if_neg h2] at hbc
        have hac : strLt a.1 c.1 = true := lexLt_trans charLt_strictOrd _ _ _ hab hbc
        have : ¬ a.1 = c.1 := by
          intro he
          rw [he] at hab
          exact absurd hbc (by simp [(strLt_strictOrd.asymm hab)])
        rw [if_neg this]
        exact hac
  · intro a b hab hba
    simp only [attrPairLt] at hab hba
    by_cases h1 : a.1 = b.1
    · rw [if_pos h1] at hab
      rw [if_pos h1.symm] at hba
      have h2 := lexLt_conn charLt_strictOrd _ _ hab hba
      exact Prod.ext h1 h2
    · rw [if_neg h1] at hab
      rw [if_neg (fun he => h1 he.symm)] at hba
      exact absurd (lexLt_conn charLt_strictOrd _ _ hab hba) h1

def attrPairLe (a b : List Char × List Char) : Prop := attrPairLt b a = false

instance : DecidableRel attrPairLe := fun a b => decEq (attrPairLt b a) false

instance : IsTotal (List Char × List Char) attrPairLe :=
  ⟨fun a b => attrPairLt_strictOrd.le_total a b⟩

instance : IsTrans (List Char × List Char) attrPairLe :=
  ⟨fun _ _ _ hab hbc => attrPairLt_strictOrd.le_trans hab hbc⟩

/-- One line of `prettify`'s output loop (cattool.py lines 319-352): a
line that does not open an attribute-carrying tag passes through
unchanged; otherwise its attributes are chomped (fatally on malformed
text or a duplicate name) and re-emitted one per line, alphabetized,
indented two spaces past the tag, a self-ending tag being expanded to an
explicit `></tag>` close. -/
def prettifyLine (line : String) : Except PErr (List String) :=
  match matchStartTag line.data with
  | none => .ok [line]
  | some (indent, tag, rest) =>
    match chompAttrs ((rstrip rest).length + 1) (rstrip rest) [] with
    | .error e => .error e
    | .ok (attrs, selfEnding) =>
      .ok ([String.mk indent ++ "<" ++ String.mk tag] ++
        (List.insertionSort attrPairLe attrs).map
          (fun p => String.mk indent ++ "  " ++ String.mk p.1 ++ "=\"" ++ String.mk p.2 ++ "\"") ++
        [if selfEnding then String.mk indent ++ "></" ++ String.mk tag ++ ">"
         else String.mk indent ++ ">"])

/-! ### Inverting the scanners on well-formed pretty-printer output -/

/-- The inline attribute text of a tag line as the upstream
pretty-printer emits it: `name="value"` pairs separated by single
spaces. -/
def renderAttrs : List (List Char × List Char) → List Char
  | [] => []
  | [(n, v)] => n ++ ('=' :: '"' :: (v ++ ['"']))
  | (n, v) :: rest => n ++ ('=' :: '"' :: (v ++ ('"' :: (' ' :: renderAttrs rest))))

/-- A full tag line with inline attributes, as handed to the re-tokenizer. -/
def renderTagLine (indent tag : List Char) (attrs : List (List Char × List Char))
    (selfEnd : Bool) : String :=
  String.mk (indent ++ ('<' :: (tag ++ (' ' ::
    (renderAttrs attrs ++ (if selfEnd then ['/', '>'] else ['>']))))))

theorem takeWhile_append_all {α : Type} (p : α → Bool) :
    ∀ (xs ys : List α), (∀ a ∈ xs, p a = true) →
      (xs ++ ys).takeWhile p = xs ++ ys.takeWhile p := by
  intro xs
  induction xs with
  | nil => intro ys _; rfl
  | cons a xs ih =>
    intro ys h
    have ha : p a = true := h a (List.mem_cons_self a xs)
    simp only [List.cons_append, List.takeWhile_cons_of_pos ha]
    rw [ih ys (fun b hb => h b (List.mem_cons_of_mem a hb))]

theorem dropWhile_append_all {α : Type} (p : α → Bool) :
    ∀ (xs ys : List α), (∀ a ∈ xs, p a = true) →
      (xs ++ ys).dropWhile p = ys.dropWhile p := by
  intro xs
  induction xs with
  | nil => intro ys _; rfl
  | cons a xs ih =>
    intro ys h
    have ha : p a = true := h a (List.mem_cons_self a xs)
    simp only [List.cons_append, List.dropWhile_cons_of_pos ha]
    exact ih ys (fun b hb => h b (List.mem_cons_of_mem a hb))

theorem wordChar_not_space {c : Char} (h : isWordChar c = true) :
    pyIsSpace c = false := by
  cases hv : pyIsSpace c with
  | false => rfl
  | true =>
    exfalso
    simp only [pyIsSpace, Bool.or_eq_true, decide_eq_true_eq] at hv
    rcases hv with ((((h1 | h1) | h1) | h1) | h1) | h1 <;> subst h1 <;>
      exact absurd h (by decide)

theorem wordChar_ne {c : Char} (h : isWordChar c = true) (d : Char)
    (hd : isWordChar d = false) : c ≠ d :=
  fun he => by rw [he, hd] at h; cases h

/-- `START_ATTR_TAG_RE` on a rendered tag line finds the indentation, the
tag, and the text after the separating space. -/
theorem matchStartTag_render (indent tag rest : List Char)
    (hind : ∀ c ∈ indent, pyIsSpace c = true)
    (htagne : tag ≠ []) (htag : ∀ c ∈ tag, isTagChar c = true) :
    matchStartTag (indent ++ ('<' :: (tag ++ (' ' :: rest)))) =
      some (indent, tag, rest) := by
  have h1 : (indent ++ ('<' :: (tag ++ (' ' :: rest)))).dropWhile pyIsSpace =
      '<' :: (tag ++ (' ' :: rest)) := by
    rw [dropWhile_append_all pyIsSpace indent _ hind]
    exact List.dropWhile_cons_of_neg (by decide)
  have h2 : (indent ++ ('<' :: (tag ++ (' ' :: rest)))).takeWhile pyIsSpace =
      indent := by
    rw [takeWhile_append_all pyIsSpace indent _ hind,
      List.takeWhile_cons_of_neg (by decide), List.append_nil]
  have h3 : (tag ++ (' ' :: rest)).takeWhile isTagChar = tag := by
    rw [takeWhile_append_all isTagChar tag _ htag,
      List.takeWhile_cons_of_neg (by decide), List.append_nil]
  have h4 : (tag ++ (' ' :: rest)).dropWhile isTagChar = ' ' :: rest := by
    rw [dropWhile_append_all isTagChar tag _ htag]
    exact List.dropWhile_cons_of_neg (by decide)
  unfold matchStartTag
  rw [h1, h2]
  show (if ((tag ++ (' ' :: rest)).takeWhile isTagChar).isEmpty then none
    else match (tag ++ (' ' :: rest)).dropWhile isTagChar with
      | c :: r₂ =>
        if pyIsSpace c then
          some (indent, (tag ++ (' ' :: rest)).takeWhile isTagChar, r₂)
        else none
      | [] => none) = some (indent, tag, rest)
  rw [h3, h4, if_neg (by simpa [List.isEmpty_iff] using htagne)]
  rfl

theorem rstrip_ends_nonspace {xs : List Char} {c : Char} (h : pyIsSpace c = false) :
    rstrip (xs ++ [c]) = xs ++ [c] := by
  unfold rstrip
  rw [List.reverse_append]
  simp only [List.reverse_cons, List.reverse_nil, List.nil_append, List.singleton_append]
  rw [List.dropWhile_cons_of_neg (by simp [h])]
  simp

/-- A rendered `name="value"` pair, optionally preceded by whitespace, is
matched exactly by `ATTR_RE`. -/
theorem matchAttr_render (sp n v t : List Char)
    (hsp : ∀ c ∈ sp, pyIsSpace c = true)
    (hn : n ≠ []) (hnw : ∀ c ∈ n, isWordChar c = true)
    (hv : ∀ c ∈ v, ¬ c = '"') :
    matchAttr (sp ++ (n ++ ('=' :: '"' :: (v ++ ('"' :: t))))) = some (n, v, t) := by
  have h1 : (sp ++ (n ++ ('=' :: '"' :: (v ++ ('"' :: t))))).dropWhile pyIsSpace =
      n ++ ('=' :: '"' :: (v ++ ('"' :: t))) := by
    rw [dropWhile_append_all pyIsSpace sp _ hsp]
    cases hn0 : n with
    | nil => exact absurd hn0 hn
    | cons c n' =>
      simp only [List.cons_append]
      exact List.dropWhile_cons_of_neg (by
        rw [wordChar_not_space (hnw c (hn0 ▸ List.mem_cons_self c n'))]
        simp)
  have h2 : (n ++ ('=' :: '"' :: (v ++ ('"' :: t)))).takeWhile isWordChar = n := by
    rw [takeWhile_append_all isWordChar n _ hnw,
      List.takeWhile_cons_of_neg (by decide), List.append_nil]
  have h3 : (n ++ ('=' :: '"' :: (v ++ ('"' :: t)))).dropWhile isWordChar =
      '=' :: '"' :: (v ++ ('"' :: t)) := by
    rw [dropWhile_append_all isWordChar n _ hnw]
    exact List.dropWhile_cons_of_neg (by decide)
  have h4 : (v ++ ('"' :: t)).dropWhile (fun c => !(c = '"')) = '"' :: t := by
    rw [dropWhile_append_all _ v _ (fun c hc => by simp [hv c hc])]
    exact List.dropWhile_cons_of_neg (by simp)
  have h5 : (v ++ ('"' :: t)).takeWhile (fun c => !(c = '"')) = v := by
    rw [takeWhile_append_all _ v _ (fun c hc => by simp [hv c hc]),
      List.takeWhile_cons_of_neg (by simp), List.append_nil]
  unfold matchAttr
  rw [h1, h2, if_neg (by simpa [List.isEmpty_iff] using hn), h3]
  show (match (v ++ ('"' :: t)).dropWhile (fun c => !(c = '"')) with
    | '"' :: r₃ =>
      some (n, (v ++ ('"' :: t)).takeWhile (fun c => !(c = '"')), r₃)
    | _ => none) = some (n, v, t)
  rw [h4, h5]
  rfl

theorem matchAttrsDone_skip_space (sp l : List Char)
    (hsp : ∀ c ∈ sp, pyIsSpace c = true) :
    matchAttrsDone (sp ++ l) = matchAttrsDone l := by
  unfold matchAttrsDone
  rw [dropWhile_append_all pyIsSpace sp _ hsp]

theorem matchAttrsDone_head_word {c : Char} {cs : List Char}
    (h : isWordChar c = true) : matchAttrsDone (c :: cs) = none := by
  have h1 : (c :: cs).dropWhile pyIsSpace = c :: cs :=
    List.dropWhile_cons_of_neg (by rw [wordChar_not_space h]; simp)
  have h2 : c ≠ '>' := wordChar_ne h '>' (by decide)
  have h3 : c ≠ '/' := wordChar_ne h '/' (by decide)
  simp [matchAttrsDone, h1, h2, h3]

theorem chompAttrs_done {fuel : Nat} {text : List Char}
    {acc : List (List Char × List Char)} {s : Bool}
    (h : matchAttrsDone text = some s) :
    chompAttrs fuel text acc = .ok (acc, s) := by
  cases fuel with
  | zero =>
    show (match matchAttrsDone text with
      | some selfEnding => (.ok (acc, selfEnding) : Except PErr _)
      | none => .error .malformed) = _
    rw [h]
  | succ fuel =>
    show (match matchAttrsDone text with
      | some selfEnding => (.ok (acc, selfEnding) : Except PErr _)
      | none =>
        match matchAttr text with
        | none => .error .malformed
        | some (name, val, rest) =>
          if acc.any (fun p => p.1 = name) then .error .dupAttr
          else chompAttrs fuel rest (acc ++ [(name, val)])) = _
    rw [h]

theorem chompAttrs_step {fuel : Nat} {text rest : List Char}
    {acc : List (List Char × List Char)} {n v : List Char}
    (hdone : matchAttrsDone text = none)
    (hattr : matchAttr text = some (n, v, rest))
    (hdup : acc.any (fun p => p.1 = n) = false) :
    chompAttrs (fuel + 1) text acc = chompAttrs fuel rest (acc ++ [(n, v)]) := by
  show (match matchAttrsDone text with
    | some selfEnding => (.ok (acc, selfEnding) : Except PErr _)
    | none =>
      match matchAttr text with
      | none => .error .malformed
      | some (name, val, r) =>
        if acc.any (fun p => p.1 = name) then .error .dupAttr
        else chompAttrs fuel r (acc ++ [(name, val)])) = _
  rw [hdone, hattr]
  simp [hdup]

/-- A rendered attribute list (well-formed names and quote-free values,
no duplicate names against the accumulator) is chomped completely,
producing the accumulated attributes in encounter order and the
self-ending flag. -/
theorem chompAttrs_render :
    ∀ (attrs acc : List (List Char × List Char)) (sp : List Char) (fuel : Nat)
      (selfEnd : Bool),
      attrs.length ≤ fuel →
      (∀ c ∈ sp, pyIsSpace c = true) →
      (∀ p ∈ attrs, p.1 ≠ [] ∧ (∀ c ∈ p.1, isWordChar c = true) ∧
        (∀ c ∈ p.2, ¬ c = '"')) →
      ((acc ++ attrs).map Prod.fst).Nodup →
      chompAttrs fuel
        (sp ++ (renderAttrs attrs ++ (if selfEnd then ['/', '>'] else ['>']))) acc =
        .ok (acc ++ attrs, selfEnd) := by
  intro attrs
  induction attrs with
  | nil =>
    intro acc sp fuel selfEnd _ hsp _ _
    have hdone : matchAttrsDone
        (sp ++ (renderAttrs [] ++ (if selfEnd then ['/', '>'] else ['>']))) =
        some selfEnd := by
      rw [matchAttrsDone_skip_space _ _ hsp]
      cases selfEnd <;> rfl
    rw [chompAttrs_done hdone]
    simp
  | cons a rest ih =>
    intro acc sp fuel selfEnd hfuel hsp hwf hnodup
    obtain ⟨n, v⟩ := a
    obtain ⟨hn, hnw, hv⟩ := hwf (n, v) (List.mem_cons_self _ _)
    cases fuel with
    | zero => exact absurd hfuel (by simp)
    | succ fuel =>
      have hshape : ∃ tail : List Char,
          renderAttrs ((n, v) :: rest) ++ (if selfEnd then ['/', '>'] else ['>']) =
            n ++ ('=' :: '"' :: (v ++ ('"' :: tail))) ∧
          (rest = [] → tail = (if selfEnd then ['/', '>'] else ['>'])) ∧
          (rest ≠ [] → tail = ' ' :: (renderAttrs rest ++
            (if selfEnd then ['/', '>'] else ['>']))) := by
        cases rest with
        | nil =>
          refine ⟨if selfEnd then ['/', '>'] else ['>'], ?_, ?_, ?_⟩
          · show (n ++ ('=' :: '"' :: (v ++ ['"']))) ++ _ = _
            simp [List.append_assoc]
          · intro _; rfl
          · intro hne; exact absurd rfl hne
        | cons b bs =>
          refine ⟨' ' :: (renderAttrs (b :: bs) ++
            (if selfEnd then ['/', '>'] else ['>'])), ?_, ?_, ?_⟩
          · show (n ++ ('=' :: '"' :: (v ++ ('"' :: (' ' :: renderAttrs (b :: bs)))))) ++ _ = _
            simp [List.append_assoc]
          · intro he; exact absurd he (List.cons_ne_nil b bs)
          · intro _; rfl
      obtain ⟨tail, htail, htail0, htail1⟩ := hshape
      have hdone : matchAttrsDone (sp ++ (n ++ ('=' :: '"' :: (v ++ ('"' :: tail))))) =
          none := by
        rw [matchAttrsDone_skip_space _ _ hsp]
        cases hn0 : n with
        | nil => exact absurd hn0 hn
        | cons c₀ n' =>
          simp only [List.cons_append]
          exact matchAttrsDone_head_word (hnw c₀ (hn0 ▸ List.mem_cons_self c₀ n'))
      have hattr : matchAttr (sp ++ (n ++ ('=' :: '"' :: (v ++ ('"' :: tail))))) =
          some (n, v, tail) := matchAttr_render sp n v tail hsp hn hnw hv
      have hdup : acc.any (fun p => p.1 = n) = false := by
        have hnin : n ∉ acc.map Prod.fst := by
          intro hmem
          have hsplit := List.nodup_append.mp (by
            rw [← List.map_append]
            exact hnodup)
          exact hsplit.2.2 hmem (by simp)
        cases hany : acc.any (fun p => p.1 = n) with
        | false => rfl
        | true =>
          obtain ⟨p, hp, hpe⟩ := List.any_eq_true.mp hany
          simp only [decide_eq_true_eq] at hpe
          exact absurd (List.mem_map.mpr ⟨p, hp, hpe⟩) hnin
      rw [htail, chompAttrs_step hdone hattr hdup]
      cases hrest : rest with
      | nil =>
        subst hrest
        rw [htail0 rfl]
        have hrec := ih (acc ++ [(n, v)]) [] fuel selfEnd (by simp)
          (by intro c hc; cases hc)
          (fun p hp => by cases hp)
          (by simpa using hnodup)
        simpa using hrec
      | cons b bs =>
        subst hrest
        rw [htail1 (List.cons_ne_nil b bs)]
        have hrec := ih (acc ++ [(n, v)]) [' '] fuel selfEnd
          (by simpa using Nat.le_of_succ_le_succ hfuel)
          (by intro c hc; simp at hc; subst hc; rfl)
          (fun p hp => hwf p (List.mem_cons_of_mem _ hp))
          (by simpa [List.append_assoc] using hnodup)
        simpa [List.append_assoc] using hrec

theorem renderAttrs_length :
    ∀ attrs : List (List Char × List Char), attrs.length ≤ (renderAttrs attrs).length := by
  intro attrs
  induction attrs with
  | nil => simp [renderAttrs]
  | cons a rest ih =>
    obtain ⟨n, v⟩ := a
    cases rest with
    | nil => simp [renderAttrs]; omega
    | cons b bs =>
      have hr : renderAttrs ((n, v) :: b :: bs) =
          n ++ ('=' :: '"' :: (v ++ ('"' :: (' ' :: renderAttrs (b :: bs))))) := rfl
      rw [hr]
      simp only [List.length_cons, List.length_append] at ih ⊢
      omega

theorem rstrip_renderAttrs (attrs : List (List Char × List Char)) (selfEnd : Bool) :
    rstrip (renderAttrs attrs ++ (if selfEnd then ['/', '>'] else ['>'])) =
      renderAttrs attrs ++ (if selfEnd then ['/', '>'] else ['>']) := by
  cases selfEnd with
  | false =>
    simp only [Bool.false_eq_true, if_false]
    exact rstrip_ends_nonspace (by decide)
  | true =>
    simp only [if_true]
    have he : renderAttrs attrs ++ ['/', '>'] =
        (renderAttrs attrs ++ ['/']) ++ ['>'] := by simp
    rw [he, rstrip_ends_nonspace (by decide)]

theorem sorted_attrs_name_lt {attrs : List (List Char × List Char)}
    (hn : (attrs.map Prod.fst).Nodup) :
    (List.insertionSort attrPairLe attrs).Pairwise
      (fun p q => strLt p.1 q.1 = true) := by
  have hsorted : List.Sorted attrPairLe (List.insertionSort attrPairLe attrs) :=
    List.sorted_insertionSort attrPairLe attrs
  have hperm := List.perm_insertionSort attrPairLe attrs
  have hn' : ((List.insertionSort attrPairLe attrs).map Prod.fst).Nodup :=
    ((hperm.map Prod.fst).nodup_iff).mpr hn
  have hne : (List.insertionSort attrPairLe attrs).Pairwise
      (fun p q => p.1 ≠ q.1) := by
    rw [List.Nodup, List.pairwise_map] at hn'
    exact hn'
  refine (List.Pairwise.and hsorted hne).imp ?_
  intro p q hpq
  obtain ⟨hle, hneq⟩ := hpq
  cases hv : strLt p.1 q.1 with
  | true => rfl
  | false =>
    exfalso
    have hqp : strLt q.1 p.1 = false := by
      have h2 : attrPairLt q p = strLt q.1 p.1 := by
        unfold attrPairLt
        rw [if_neg (fun he => hneq he.symm)]
      rw [← h2]
      exact hle
    exact hneq (strLt_strictOrd.conn _ _ hv hqp)

/-- The output block `prettify` prints for a parsed tag line. -/
def prettyBlock (indent tag : List Char) (attrs : List (List Char × List Char))
    (selfEnding : Bool) : List String :=
  [String.mk indent ++ "<" ++ String.mk tag] ++
    (List.insertionSort attrPairLe attrs).map
      (fun p => String.mk indent ++ "  " ++ String.mk p.1 ++ "=\"" ++
        String.mk p.2 ++ "\"") ++
    [if selfEnding then String.mk indent ++ "></" ++ String.mk tag ++ ">"
     else String.mk indent ++ ">"]

theorem prettifyLine_of_start_some {line : String} {indent tag rest : List Char}
    (h : matchStartTag line.data = some (indent, tag, rest)) :
    prettifyLine line =
      match chompAttrs ((rstrip rest).length + 1) (rstrip rest) [] with
      | .error e => .error e
      | .ok (attrs, selfEnding) => .ok (prettyBlock indent tag attrs selfEnding) := by
  unfold prettifyLine prettyBlock
  rw [h]

theorem prettifyLine_of_chomp_ok {line : String} {indent tag rest : List Char}
    {attrs : List (List Char × List Char)} {selfEnding : Bool}
    (h : matchStartTag line.data = some (indent, tag, rest))
    (hc : chompAttrs ((rstrip rest).length + 1) (rstrip rest) [] =
      .ok (attrs, selfEnding)) :
    prettifyLine line = .ok (prettyBlock indent tag attrs selfEnding) := by
  rw [prettifyLine_of_start_some h, hc]

theorem prettifyLine_of_chomp_error {line : String} {indent tag rest : List Char}
    {e : PErr}
    (h : matchStartTag line.data = some (indent, tag, rest))
    (hc : chompAttrs ((rstrip rest).length + 1) (rstrip rest) [] = .error e) :
    prettifyLine line = .error e := by
  rw [prettifyLine_of_start_some h, hc]

/-- **C8.** A tag line with inline well-formed attributes is re-emitted
as the open tag on its own line, one line per attribute in alphabetical
order by attribute name regardless of input order (each `name="value"`,
indented two spaces past the tag), and a closing line, with self-closing
syntax expanded to an explicit paired close; in particular
`<foo b="2" a="1"/>` yields `<foo`, `  a="1"`, `  b="2"`, `></foo>`. -/
theorem prettifyLine_correct :
    prettifyLine "<foo b=\"2\" a=\"1\"/>" =
      .ok ["<foo", "  a=\"1\"", "  b=\"2\"", "></foo>"] ∧
    (∀ (indent tag : List Char) (attrs : List (List Char × List Char))
      (selfEnd : Bool),
      (∀ c ∈ indent, pyIsSpace c = true) →
      tag ≠ [] → (∀ c ∈ tag, isTagChar c = true) →
      (∀ p ∈ attrs, p.1 ≠ [] ∧ (∀ c ∈ p.1, isWordChar c = true) ∧
        (∀ c ∈ p.2, ¬ c = '"')) →
      (attrs.map Prod.fst).Nodup →
      prettifyLine (renderTagLine indent tag attrs selfEnd) =
        .ok (prettyBlock indent tag attrs selfEnd) ∧
      (List.insertionSort attrPairLe attrs).Perm attrs ∧
      (List.insertionSort attrPairLe attrs).Pairwise
        (fun p q => strLt p.1 q.1 = true)) := by
  constructor
  · rfl
  · intro indent tag attrs selfEnd hind htagne htag hwf hnodup
    refine ⟨?_, List.perm_insertionSort attrPairLe attrs, sorted_attrs_name_lt hnodup⟩
    have hstart : matchStartTag (renderTagLine indent tag attrs selfEnd).data =
        some (indent, tag,
          renderAttrs attrs ++ (if selfEnd then ['/', '>'] else ['>'])) := by
      show matchStartTag (indent ++ ('<' :: (tag ++ (' ' ::
        (renderAttrs attrs ++ (if selfEnd then ['/', '>'] else ['>'])))))) = _
      exact matchStartTag_render indent tag _ hind htagne htag
    have hchomp : chompAttrs
        ((rstrip (renderAttrs attrs ++
          (if selfEnd then ['/', '>'] else ['>']))).length + 1)
        (rstrip (renderAttrs attrs ++ (if selfEnd then ['/', '>'] else ['>']))) [] =
        .ok (attrs, selfEnd) := by
      rw [rstrip_renderAttrs attrs selfEnd]
      have hfuel : attrs.length ≤
          (renderAttrs attrs ++ (if selfEnd then ['/', '>'] else ['>'])).length + 1 := by
        have h := renderAttrs_length attrs
        simp only [List.length_append]
        omega
      have hr := chompAttrs_render attrs [] []
        ((renderAttrs attrs ++ (if selfEnd then ['/', '>'] else ['>'])).length + 1)
        selfEnd hfuel (by intro c hc; cases hc) hwf (by simpa using hnodup)
      simpa using hr
    exact prettifyLine_of_chomp_ok hstart hchomp

/-- Witness for C8: a concrete self-closing tag with out-of-order
attributes is re-emitted alphabetized and expanded. -/
theorem prettifyLine_correct_witness :
    prettifyLine "<bar b=\"2\" a=\"1\"/>" =
      .ok ["<bar", "  a=\"1\"", "  b=\"2\"", "></bar>"] := by
  have h := (prettifyLine_correct.2 [] "bar".data
    [("b".data, "2".data), ("a".data, "1".data)] true
    (by intro c hc; cases hc) (by decide) (by decide)
    (by decide) (by decide)).1
  have heq : renderTagLine [] "bar".data
      [("b".data, "2".data), ("a".data, "1".data)] true =
      "<bar b=\"2\" a=\"1\"/>" := rfl
  rw [heq] at h
  rw [h]
  rfl

/-- **C9.** A line that opens an attribute-carrying tag but whose
remainder cannot be chomped as well-formed `name="value"` pairs followed
by an ending marker — or that repeats an attribute name — makes the
serializer fail fatally with no output for that tag: an unescaped quote
inside a value and a duplicated name are both fatal, and whenever the
chomping loop reports an error `prettifyLine` returns exactly that error
and no lines. -/
theorem prettify_malformed_fatal :
    prettifyLine "<foo a=\"1\" a=\"2\">" = .error PErr.dupAttr ∧
    prettifyLine "<foo a=\"b\"c\">" = .error PErr.malformed ∧
    (∀ (line : String) (indent tag rest : List Char) (e : PErr),
      matchStartTag line.data = some (indent, tag, rest) →
      chompAttrs ((rstrip rest).length + 1) (rstrip rest) [] = .error e →
      prettifyLine line = .error e) :=
  ⟨rfl, rfl, fun _ _ _ _ _ h hc => prettifyLine_of_chomp_error h hc⟩

/-- Witness for C9: a concrete duplicate-name tag line aborts with the
duplicate-attribute error through the general statement. -/
theorem prettify_malformed_fatal_witness :
    prettifyLine "<x y=\"1\" y=\"2\">" = .error PErr.dupAttr := by
  exact prettify_malformed_fatal.2.2 "<x y=\"1\" y=\"2\">" [] ['x']
    "y=\"1\" y=\"2\">".data PErr.dupAttr rfl rfl

/-! ## Spec-side reference definitions (for refinement comparisons) -/

/-- Modelled from the spec (§4.1): the imageset partition key is the
underscore-join, lowercased, of the data-set-type value string, the
reference frame only when present and not `"Sky"`, and the band-pass
value only when present. -/
def specImagesetKey (s : ImageSet) : String :=
  lowerStr (joinUnderscore ([s.data_set_type] ++
    (match s.reference_frame with
     | some rf => if rf = "Sky" then [] else [rf]
     | none => []) ++
    (match s.band_pass with
     | some bp => [bp]
     | none => [])))

/-- Modelled from the spec (§4.2 within-shard ordering): the composite
sort key takes `foreground_image_set_url` if present, **else**
`image_set_url` if present, **else** `background_image_set_url` if
present — a first-present-only chain — then `(dec_deg, ra_hr)` if
`dec_deg` is present, then `(latitude, longitude)` if `latitude` is
present, then `name`. -/
def specSortKey (info : Info) : List Atom :=
  (match info.foreground_image_set_url with
   | some u => [Atom.str u.data]
   | none =>
     match info.image_set_url with
     | some u => [Atom.str u.data]
     | none =>
       match info.background_image_set_url with
       | some u => [Atom.str u.data]
       | none => []) ++
  (match info.dec_deg, info.ra_hr with
   | some dec, some ra => [Atom.num dec, Atom.num ra]
   | some dec, none => [Atom.num dec]
   | none, _ => []) ++
  (match info.latitude, info.longitude with
   | some lat, some lon => [Atom.num lat, Atom.num lon]
   | some lat, none => [Atom.num lat]
   | none, _ => []) ++
  [Atom.str info.name.data]

/-- The ordering the spec's within-shard composite key induces. -/
def specSortLt (i₁ i₂ : Info) : Bool := keyLt (specSortKey i₁) (specSortKey i₂)

/-! ## Theorems -/

/-- **C4.** The imageset shard partition key is the underscore-join,
lowercased, of the data-set-type value string, the reference frame only
if present and not `"Sky"`, and the band-pass value only if present; an
imageset with `data_set_type="Sky"`, no frame, `band_pass="Visible"`
yields `"sky_visible"`, and an explicit frame `"Sky"` yields the same
key as an absent frame. -/
theorem imagesetShardKey_correct :
    (∀ s : ImageSet, imagesetShardKey s = specImagesetKey s) ∧
    imagesetShardKey ⟨"u", "Sky", none, some "Visible"⟩ = "sky_visible" ∧
    (∀ s : ImageSet,
      imagesetShardKey { s with reference_frame := some "Sky" } =
        imagesetShardKey { s with reference_frame := none }) := by
  refine ⟨?_, rfl, ?_⟩
  · intro s
    obtain ⟨u, dst, rf, bp⟩ := s
    cases rf with
    | none => cases bp <;> simp [imagesetShardKey, specImagesetKey]
    | some r =>
      by_cases hr : r = "Sky"
      · subst hr
        cases bp <;> simp [imagesetShardKey, specImagesetKey]
      · cases bp <;> simp [imagesetShardKey, specImagesetKey, hr]
  · intro s
    obtain ⟨u, dst, rf, bp⟩ := s
    cases bp <;> simp [imagesetShardKey]

/-- **C5.** The longitude component of a place shard key bins
`longitude` to `floor(longitude / 10) * 10` with floor semantics (the
code's `(int(math.floor(lon)) // 10) * 10` equals it), rendered as
`lon` plus the 3-digit zero-padded, sign-carrying value; in particular
`longitude = -5` falls in bin `-10`, not `0`. -/
theorem lonComponent_correct :
    (∀ q : ℚ, ⌊q⌋ / 10 * 10 = ⌊q / 10⌋ * 10) ∧
    (∀ q : ℚ, lonComponent q = "lon" ++ padInt 3 (⌊q / 10⌋ * 10)) ∧
    lonComponent (-5) = "lon-10" ∧
    placeShardKey ⟨"Sky", "p", none, none, none, none, none, none, some (-5)⟩ =
      "sky_lon-10" := by
  have hdiv : ∀ q : ℚ, ⌊q⌋ / 10 = ⌊q / 10⌋ := by
    intro q
    apply le_antisymm
    · rw [Int.le_floor]
      rw [le_div_iff₀ (by norm_num : (0:ℚ) < 10)]
      have h₁ : ⌊q⌋ / 10 * 10 ≤ ⌊q⌋ := Int.ediv_mul_le ⌊q⌋ (by norm_num)
      have h₂ : (⌊q⌋ : ℚ) ≤ q := Int.floor_le q
      calc ((⌊q⌋ / 10 : ℤ) : ℚ) * 10 = ((⌊q⌋ / 10 * 10 : ℤ) : ℚ) := by push_cast; ring
        _ ≤ (⌊q⌋ : ℚ) := by exact_mod_cast h₁
        _ ≤ q := h₂
    · rw [Int.le_ediv_iff_mul_le (by norm_num : (0:ℤ) < 10), Int.le_floor]
      push_cast
      have h₁ : (⌊q / 10⌋ : ℚ) ≤ q / 10 := Int.floor_le (q / 10)
      nlinarith
  have hcomp : ∀ q : ℚ, lonComponent q = "lon" ++ padInt 3 (⌊q / 10⌋ * 10) := by
    intro q
    rw [lonComponent, hdiv]
  refine ⟨fun q => by rw [hdiv], hcomp, ?_, ?_⟩
  · rw [hcomp]
    norm_num
    rfl
  · have h5 : lonComponent (-5) = "lon-10" := by rw [hcomp]; norm_num; rfl
    show lowerStr (joinUnderscore ["Sky", lonComponent (-5)]) = "sky_lon-10"
    rw [h5]
    rfl

/-- **C6.** The RA component of a place shard key is
`floor(ra_hr) mod 24` (always in `[0, 24)`), rendered as `ra` plus the
2-digit zero-padded value; `ra_hr = 23.9` gives `ra23` and
`ra_hr = 24.5` wraps to `ra00`. -/
theorem raComponent_correct :
    (∀ q : ℚ, raComponent q = "ra" ++ padInt 2 (⌊q⌋ % 24)) ∧
    (∀ q : ℚ, 0 ≤ ⌊q⌋ % 24 ∧ ⌊q⌋ % 24 < 24) ∧
    raComponent (239 / 10) = "ra23" ∧
    raComponent (49 / 2) = "ra00" ∧
    placeShardKey ⟨"Sky", "p", none, none, none, none, some (239 / 10), none, none⟩ =
      "sky_ra23" := by
  have h239 : (⌊(239 / 10 : ℚ)⌋ : ℤ) = 23 := by norm_num
  have h49 : (⌊(49 / 2 : ℚ)⌋ : ℤ) = 24 := by norm_num
  have hra : raComponent (239 / 10) = "ra23" := by
    rw [raComponent, h239]
    rfl
  refine ⟨fun q => rfl, ?_, hra, ?_, ?_⟩
  · intro q
    exact ⟨Int.emod_nonneg _ (by norm_num), Int.emod_lt_of_pos _ (by norm_num)⟩
  · rw [raComponent, h49]
    rfl
  · show lowerStr (joinUnderscore ["Sky", raComponent (239 / 10)]) = "sky_ra23"
    rw [hra]
    rfl

theorem foldAdd_lookup :
    ∀ (l : List ImageSet) (db : List ImageSet) (u : String),
      storeLookup (foldAdd db l) u =
        (storeLookup db u).or (l.find? (fun i => i.url == u)) := by
  intro l
  induction l with
  | nil =>
    intro db u
    simp [foldAdd, storeLookup]
  | cons i l ih =>
    intro db u
    have hstep : foldAdd db (i :: l) = foldAdd (addImageset db i).1 l := rfl
    rw [hstep]
    cases h : storeLookup db i.url with
    | some v =>
      have h1 : (addImageset db i).1 = db := by simp [addImageset, h]
      rw [h1, ih]
      by_cases hu : i.url = u
      · subst hu
        rw [h]
        simp
      · have : (i.url == u) = false := beq_false_of_ne hu
        simp [List.find?, this]
    | none =>
      have h1 : (addImageset db i).1 = db ++ [i] := by simp [addImageset, h]
      rw [h1, ih]
      have happ : storeLookup (db ++ [i]) u =
          (storeLookup db u).or (List.find? (fun s => s.url == u) [i]) := by
        simp [storeLookup, List.find?_append]
      rw [happ]
      by_cases hu : i.url = u
      · subst hu
        have hdbu : storeLookup db i.url = none := h
        rw [hdbu]
        simp [List.find?]
      · have hne : (i.url == u) = false := beq_false_of_ne hu
        simp [List.find?, hne]

theorem foldAdd_nodup :
    ∀ (l : List ImageSet) (db : List ImageSet),
      (db.map (fun s => s.url)).Nodup → ((foldAdd db l).map (fun s => s.url)).Nodup := by
  intro l
  induction l with
  | nil => intro db h; exact h
  | cons i l ih =>
    intro db h
    have hstep : foldAdd db (i :: l) = foldAdd (addImageset db i).1 l := rfl
    rw [hstep]
    cases hl : storeLookup db i.url with
    | some v =>
      have h1 : (addImageset db i).1 = db := by simp [addImageset, hl]
      rw [h1]
      exact ih db h
    | none =>
      have h1 : (addImageset db i).1 = db ++ [i] := by simp [addImageset, hl]
      rw [h1]
      apply ih
      rw [List.map_append, List.nodup_append]
      refine ⟨h, List.nodup_singleton _, ?_⟩
      intro a ha hb
      simp only [List.map_cons, List.map_nil, List.mem_singleton] at hb
      subst hb
      obtain ⟨s, hs, hsu⟩ := List.mem_map.mp ha
      have := (List.find?_eq_none.mp hl) s hs
      simp only [beq_iff_eq] at this
      exact this hsu

/-- **C3.** `add_imageset` inserts by `url` key: a duplicate `url` is a
warning-emitting no-op that changes no state and raises no error, a
fresh `url` appends; after any sequence of inserts the store holds
exactly one record per `url`, and it is the first-inserted imageset for
that `url`. -/
theorem addImageset_dedup :
    (∀ (db : List ImageSet) (i : ImageSet),
      (storeLookup db i.url).isSome = true → addImageset db i = (db, true)) ∧
    (∀ (db : List ImageSet) (i : ImageSet),
      storeLookup db i.url = none → addImageset db i = (db ++ [i], false)) ∧
    (∀ (inserts : List ImageSet) (u : String),
      storeLookup (foldAdd [] inserts) u = inserts.find? (fun i => i.url == u)) ∧
    (∀ inserts : List ImageSet, ((foldAdd [] inserts).map (fun s => s.url)).Nodup) := by
  refine ⟨?_, ?_, ?_, ?_⟩
  · intro db i h
    simp [addImageset, h]
  · intro db i h
    simp [addImageset, h]
  · intro inserts u
    rw [foldAdd_lookup]
    simp [storeLookup]
  · intro inserts
    exact foldAdd_nodup inserts [] (by simp)

/-- Witness for C3: two imagesets sharing `url` `"u"` with different
payloads; the second insert warns and is dropped, the store keeps the
first. -/
theorem addImageset_dedup_witness :
    storeLookup (foldAdd [] [⟨"u", "A", none, none⟩, ⟨"u", "B", none, none⟩]) "u" =
      some ⟨"u", "A", none, none⟩ ∧
    addImageset [⟨"u", "A", none, none⟩] ⟨"u", "B", none, none⟩ =
      ([⟨"u", "A", none, none⟩], true) ∧
    ((foldAdd [] [⟨"u", "A", none, none⟩, ⟨"u", "B", none, none⟩]).map
      (fun s => s.url)).Nodup := by
  refine ⟨?_, ?_, ?_⟩
  · rw [addImageset_dedup.2.2.1 [⟨"u", "A", none, none⟩, ⟨"u", "B", none, none⟩] "u"]
    rfl
  · exact addImageset_dedup.1 [⟨"u", "A", none, none⟩] ⟨"u", "B", none, none⟩ (by rfl)
  · exact addImageset_dedup.2.2.2 [⟨"u", "A", none, none⟩, ⟨"u", "B", none, none⟩]

theorem exceptMapM_error_of_mem {ε α β : Type} (f : α → Except ε β) :
    ∀ (l : List α) (x : α), x ∈ l → (∃ e, f x = .error e) →
      ∃ e, exceptMapM f l = .error e := by
  intro l
  induction l with
  | nil => intro x hx; exact absurd hx (List.not_mem_nil x)
  | cons y ys ih =>
    intro x hx he
    have heq : exceptMapM f (y :: ys) = (do
        let b ← f y
        let bs ← exceptMapM f ys
        pure (b :: bs)) := rfl
    cases hfy : f y with
    | error e =>
      refine ⟨e, ?_⟩
      rw [heq, hfy]
      rfl
    | ok b =>
      rcases List.mem_cons.mp hx with hxy | hxs
      · subst hxy
        obtain ⟨e, hfe⟩ := he
        rw [hfe] at hfy
        cases hfy
      · obtain ⟨e, hrec⟩ := ih x hxs he
        refine ⟨e, ?_⟩
        rw [heq, hfy]
        show (do
            let bs ← exceptMapM f ys
            pure (b :: bs) : Except ε (List β)) = Except.error e
        rw [hrec]
        rfl

theorem lookupG_some_mem {β : Type} :
    ∀ (l : List (String × β)) (k : String) (g : β),
      lookupG l k = some g → (k, g) ∈ l := by
  intro l
  induction l with
  | nil => intro k g h; cases h
  | cons p rest ih =>
    intro k g h
    obtain ⟨k', g'⟩ := p
    by_cases hk : k' = k
    · subst hk
      simp only [lookupG, if_true, eq_self_iff_true, Option.some.injEq] at h
      rw [← h]
      exact List.mem_cons_self _ _
    · simp only [lookupG, if_neg hk] at h
      exact List.mem_cons_of_mem _ (ih k g h)

theorem mem_group_of_mem {α : Type} (key : α → String) :
    ∀ (l : List α) (x : α), x ∈ l →
      ∃ g, (key x, g) ∈ groupFold key l ∧ x ∈ g := by
  intro l x hx
  have hfilter : x ∈ l.filter (fun y => key y == key x) :=
    List.mem_filter.mpr ⟨hx, by simp⟩
  have hlook := lookupG_groupFold key l [] (key x)
  simp only [lookupG] at hlook
  cases hf : l.filter (fun y => key y == key x) with
  | nil => rw [hf] at hfilter; exact absurd hfilter (List.not_mem_nil x)
  | cons z zs =>
    rw [hf] at hlook
    exact ⟨z :: zs, lookupG_some_mem _ _ _ (by exact hlook), hf ▸ hfilter⟩

/-- A place-info record violating the pairing invariant. -/
def badPair (i : Info) : Prop :=
  (i.dec_deg.isSome = true ∧ i.ra_hr = none) ∨
  (i.latitude.isSome = true ∧ i.longitude = none)

theorem sortkey_error_of_badPair {i : Info} (h : badPair i) :
    sortkey i = .error SErr.keyMissing := by
  rcases h with ⟨hdec, hra⟩ | ⟨hlat, hlon⟩
  · obtain ⟨d, hd⟩ := Option.isSome_iff_exists.mp hdec
    simp only [sortkey, hd, hra]
    rfl
  · obtain ⟨la, hla⟩ := Option.isSome_iff_exists.mp hlat
    cases hdec : i.dec_deg with
    | none =>
      simp only [sortkey, hdec, hla, hlon]
      rfl
    | some d =>
      cases hra : i.ra_hr with
      | none =>
        simp only [sortkey, hdec, hra]
        rfl
      | some r =>
        simp only [sortkey, hdec, hra, hla, hlon]
        rfl

/-- **C10.** `PlaceDatabase.rewrite.sortkey` reads `info["ra_hr"]`
unconditionally when `dec_deg` is present and `info["longitude"]`
unconditionally when `latitude` is present: a record with `dec_deg` but
no `ra_hr` (or `latitude` but no `longitude`) makes `sortkey` raise the
missing-key error, any store holding such a record makes the whole
rewrite abort instead of producing shard files, and a successful rewrite
implies every held record pairs `dec_deg` with `ra_hr` and `latitude`
with `longitude`. -/
theorem placeRewrite_requires_pairs :
    (∀ i : Info, i.dec_deg.isSome = true → i.ra_hr = none →
      sortkey i = .error SErr.keyMissing) ∧
    (∀ i : Info, i.latitude.isSome = true → i.longitude = none →
      sortkey i = .error SErr.keyMissing) ∧
    (∀ infos : List Info, (∃ i ∈ infos, badPair i) →
      ∃ e, placeRewrite infos = .error e) ∧
    (∀ (infos : List Info) (out : List (String × List Info)),
      placeRewrite infos = .ok out →
      ∀ i ∈ infos, (i.dec_deg.isSome = true → i.ra_hr.isSome = true) ∧
        (i.latitude.isSome = true → i.longitude.isSome = true)) := by
  have herr : ∀ infos : List Info, (∃ i ∈ infos, badPair i) →
      ∃ e, placeRewrite infos = .error e := by
    intro infos ⟨i, hi, hbad⟩
    obtain ⟨g, hg, hig⟩ := mem_group_of_mem placeShardKey infos i hi
    have hshard : ∃ e, sortShard g = .error e := by
      obtain ⟨e, hmap⟩ := exceptMapM_error_of_mem
        (fun j => (sortkey j).map (fun k => (k, j))) g i hig
        ⟨SErr.keyMissing, by
          show Except.map (fun k => (k, i)) (sortkey i) = Except.error SErr.keyMissing
          rw [sortkey_error_of_badPair hbad]
          rfl⟩
      refine ⟨e, ?_⟩
      unfold sortShard
      rw [hmap]
      rfl
    obtain ⟨e, he⟩ := hshard
    refine exceptMapM_error_of_mem _ (groupFold placeShardKey infos) (placeShardKey i, g)
      hg ⟨e, ?_⟩
    show Except.map (fun g₂ => (placeShardKey i, g₂)) (sortShard g) = Except.error e
    rw [he]
    rfl
  refine ⟨?_, ?_, herr, ?_⟩
  · intro i hdec hra
    exact sortkey_error_of_badPair (Or.inl ⟨hdec, hra⟩)
  · intro i hlat hlon
    exact sortkey_error_of_badPair (Or.inr ⟨hlat, hlon⟩)
  · intro infos out hok i hi
    constructor
    · intro hdec
      by_contra hra
      have hbad : badPair i := Or.inl ⟨hdec, Option.not_isSome_iff_eq_none.mp
        (by simpa using hra)⟩
      obtain ⟨e, he⟩ := herr infos ⟨i, hi, hbad⟩
      rw [hok] at he
      cases he
    · intro hlat
      by_contra hlon
      have hbad : badPair i := Or.inr ⟨hlat, Option.not_isSome_iff_eq_none.mp
        (by simpa using hlon)⟩
      obtain ⟨e, he⟩ := herr infos ⟨i, hi, hbad⟩
      rw [hok] at he
      cases he

/-- Witness for C10: a record carrying `dec_deg` but no `ra_hr` makes
`sortkey` raise the missing-key error, and a store holding it makes the
rewrite abort. -/
theorem placeRewrite_requires_pairs_witness :
    sortkey ⟨"Sky", "n", none, none, none, some 1, none, none, none⟩ =
      .error SErr.keyMissing ∧
    ∃ e, placeRewrite [⟨"Sky", "n", none, none, none, some 1, none, none, none⟩] =
      .error e := by
  refine ⟨?_, ?_⟩
  · exact placeRewrite_requires_pairs.1
      ⟨"Sky", "n", none, none, none, some 1, none, none, none⟩ rfl rfl
  · exact placeRewrite_requires_pairs.2.2.1
      [⟨"Sky", "n", none, none, none, some 1, none, none, none⟩]
      ⟨_, List.mem_singleton.mpr rfl, Or.inl ⟨rfl, rfl⟩⟩

theorem lexLt_append_left {α : Type} [DecidableEq α] (lt : α → α → Bool) :
    ∀ (p xs ys : List α), lexLt lt (p ++ xs) (p ++ ys) = lexLt lt xs ys := by
  intro p
  induction p with
  | nil => intro xs ys; rfl
  | cons a p ih =>
    intro xs ys
    simp only [List.cons_append, lexLt, if_pos rfl]
    exact ih xs ys

theorem pyListLt_append_left :
    ∀ (p xs ys : List Atom), pyListLt (p ++ xs) (p ++ ys) = pyListLt xs ys := by
  intro p
  induction p with
  | nil => intro xs ys; rfl
  | cons a p ih =>
    intro xs ys
    simp only [List.cons_append, pyListLt, (atomEqB_iff a a).mpr rfl, if_pos]
    exact ih xs ys

theorem keyLt_str_singleton (a b : List Char) :
    keyLt [Atom.str a] [Atom.str b] = strLt a b := by
  by_cases hab : a = b
  · subst hab
    simp only [keyLt, lexLt, if_pos rfl]
    exact (lexLt_irrefl charLt a).symm
  · have : ¬ (Atom.str a = Atom.str b) := by simp [hab]
    simp only [keyLt, lexLt, if_neg this, atomLt]

/-- The atoms the code's sort key draws from the URL fields: the
characters of **every** present URL, foreground first, then image-set,
then background. -/
def urlAtoms (i : Info) : List Atom :=
  (i.foreground_image_set_url.getD "").data.map (fun c => Atom.str [c]) ++
  (i.image_set_url.getD "").data.map (fun c => Atom.str [c]) ++
  (i.background_image_set_url.getD "").data.map (fun c => Atom.str [c])

/-- The coordinate atoms of the code's sort key. -/
def coordAtoms (i : Info) : List Atom :=
  (match i.dec_deg, i.ra_hr with
   | some d, some r => [Atom.num d, Atom.num r]
   | _, _ => []) ++
  (match i.latitude, i.longitude with
   | some la, some lo => [Atom.num la, Atom.num lo]
   | _, _ => [])

/-- The pairing invariant under which `sortkey` succeeds (cf. C10). -/
def wfInfo (i : Info) : Prop :=
  (i.dec_deg.isSome = true → i.ra_hr.isSome = true) ∧
  (i.latitude.isSome = true → i.longitude.isSome = true)

theorem sortkey_ok_of_wf {i : Info} (hwf : wfInfo i) :
    sortkey i = .ok (urlAtoms i ++ coordAtoms i ++ [Atom.str i.name.data]) := by
  have h1 := hwf.1
  have h2 := hwf.2
  cases hdec : i.dec_deg with
  | some d =>
    obtain ⟨r, hra⟩ := Option.isSome_iff_exists.mp (h1 (by rw [hdec]; rfl))
    cases hlat : i.latitude with
    | some la =>
      obtain ⟨lo, hlon⟩ := Option.isSome_iff_exists.mp (h2 (by rw [hlat]; rfl))
      cases hfg : i.foreground_image_set_url <;>
        cases himg : i.image_set_url <;>
          cases hbg : i.background_image_set_url <;>
            (simp [sortkey, urlAtoms, coordAtoms, hdec, hra, hlat, hlon, hfg, himg, hbg]; rfl)
    | none =>
      cases hfg : i.foreground_image_set_url <;>
        cases himg : i.image_set_url <;>
          cases hbg : i.background_image_set_url <;>
            (simp [sortkey, urlAtoms, coordAtoms, hdec, hra, hlat, hfg, himg, hbg]; rfl)
  | none =>
    cases hlat : i.latitude with
    | some la =>
      obtain ⟨lo, hlon⟩ := Option.isSome_iff_exists.mp (h2 (by rw [hlat]; rfl))
      cases hfg : i.foreground_image_set_url <;>
        cases himg : i.image_set_url <;>
          cases hbg : i.background_image_set_url <;>
            (simp [sortkey, urlAtoms, coordAtoms, hdec, hlat, hlon, hfg, himg, hbg]; rfl)
    | none =>
      cases hfg : i.foreground_image_set_url <;>
        cases himg : i.image_set_url <;>
          cases hbg : i.background_image_set_url <;>
            (simp [sortkey, urlAtoms, coordAtoms, hdec, hlat, hfg, himg, hbg]; rfl)

/-- **C1 (counterexample).** The claim's first-present-only ("else")
chain of URL components is not what the code does: `sortkey` appends the
characters of *every* present URL field.  Records
`A = {fg: "x", img: "z", name: "a"}` and `B = {fg: "x", name: "b"}` land
in the same shard and have equal `foreground_image_set_url`; the spec's
composite key orders `A` before `B` (name tie-break `"a" < "b"`), but
the code's rewrite sorts `B` before `A` (because `'b' < 'z'` at the
third key position). -/
theorem place_sort_counterexample :
    placeShardKey ⟨"Sky", "a", some "x", some "z", none, none, none, none, none⟩ =
      placeShardKey ⟨"Sky", "b", some "x", none, none, none, none, none, none⟩ ∧
    specSortLt ⟨"Sky", "a", some "x", some "z", none, none, none, none, none⟩
      ⟨"Sky", "b", some "x", none, none, none, none, none, none⟩ = true ∧
    sortShard [⟨"Sky", "a", some "x", some "z", none, none, none, none, none⟩,
               ⟨"Sky", "b", some "x", none, none, none, none, none, none⟩] =
      .ok [⟨"Sky", "b", some "x", none, none, none, none, none, none⟩,
           ⟨"Sky", "a", some "x", some "z", none, none, none, none, none⟩] :=
  ⟨rfl, rfl, rfl⟩

/-- **C1 (amended).** Within a shard, `PlaceDatabase.rewrite` orders
records by the composite key that concatenates the characters of every
*present* URL field in order foreground, image-set, background (not a
first-present-only chain), then `(dec_deg, ra_hr)` if `dec_deg` is
present, then `(latitude, longitude)` if `latitude` is present, then
`name`; in particular two records agreeing in all three URL fields and
in the coordinate fields are ordered by `name` as the final
tie-break. -/
theorem place_sort_amended :
    (∀ i : Info, wfInfo i →
      sortkey i = .ok (urlAtoms i ++ coordAtoms i ++ [Atom.str i.name.data])) ∧
    (∀ i₁ i₂ : Info,
      i₁.foreground_image_set_url = i₂.foreground_image_set_url →
      i₁.image_set_url = i₂.image_set_url →
      i₁.background_image_set_url = i₂.background_image_set_url →
      i₁.dec_deg = i₂.dec_deg → i₁.ra_hr = i₂.ra_hr →
      i₁.latitude = i₂.latitude → i₁.longitude = i₂.longitude →
      wfInfo i₁ →
      sortShard [i₁, i₂] =
        .ok (if strLt i₂.name.data i₁.name.data then [i₂, i₁] else [i₁, i₂])) := by
  refine ⟨fun i hwf => sortkey_ok_of_wf hwf, ?_⟩
  intro i₁ i₂ hfg himg hbg hdec hra hlat hlon hwf₁
  have hwf₂ : wfInfo i₂ := by
    constructor
    · rw [← hdec, ← hra]; exact hwf₁.1
    · rw [← hlat, ← hlon]; exact hwf₁.2
  have hurl : urlAtoms i₁ = urlAtoms i₂ := by
    unfold urlAtoms
    rw [hfg, himg, hbg]
  have hcoord : coordAtoms i₁ = coordAtoms i₂ := by
    unfold coordAtoms
    rw [hdec, hra, hlat, hlon]
  set p := urlAtoms i₁ ++ coordAtoms i₁ with hp
  have hk₁ : sortkey i₁ = .ok (p ++ [Atom.str i₁.name.data]) := by
    rw [sortkey_ok_of_wf hwf₁, hp, List.append_assoc]
  have hk₂ : sortkey i₂ = .ok (p ++ [Atom.str i₂.name.data]) := by
    rw [sortkey_ok_of_wf hwf₂, hp, hurl, hcoord, List.append_assoc]
  have hkeyed : exceptMapM (fun i => (sortkey i).map (fun k => (k, i))) [i₁, i₂] =
      .ok [(p ++ [Atom.str i₁.name.data], i₁), (p ++ [Atom.str i₂.name.data], i₂)] := by
    have e₁ : exceptMapM (fun i => (sortkey i).map (fun k => (k, i))) [i₁, i₂] = (do
        let a ← (sortkey i₁).map (fun k => (k, i₁))
        let b ← exceptMapM (fun i => (sortkey i).map (fun k => (k, i))) [i₂]
        pure (a :: b)) := rfl
    have e₂ : exceptMapM (fun i => (sortkey i).map (fun k => (k, i))) [i₂] = (do
        let a ← (sortkey i₂).map (fun k => (k, i₂))
        let b ← exceptMapM (fun i => (sortkey i).map (fun k => (k, i)))
          ([] : List Info)
        pure (a :: b)) := rfl
    rw [e₁, e₂, hk₁, hk₂]
    rfl
  have hcompare : pyListLt (p ++ [Atom.str i₁.name.data]) (p ++ [Atom.str i₂.name.data])
      = pyListLt [Atom.str i₁.name.data] [Atom.str i₂.name.data] :=
    pyListLt_append_left p _ _
  have hcomparable : (pyListLt (p ++ [Atom.str i₁.name.data])
      (p ++ [Atom.str i₂.name.data])).isOk = true := by
    rw [hcompare]
    by_cases hn : i₁.name.data = i₂.name.data
    · simp only [pyListLt, atomEqB, hn, decide_eq_true_eq, if_pos rfl]
      rfl
    · simp only [pyListLt, atomEqB, decide_eq_true_eq, if_neg hn, atomLtE]
      rfl
  have hkeyLt : keyLt (p ++ [Atom.str i₂.name.data]) (p ++ [Atom.str i₁.name.data]) =
      strLt i₂.name.data i₁.name.data := by
    show lexLt atomLt (p ++ [Atom.str i₂.name.data]) (p ++ [Atom.str i₁.name.data]) = _
    rw [lexLt_append_left]
    exact keyLt_str_singleton _ _
  unfold sortShard
  rw [hkeyed]
  show (if pairsComparable ([(p ++ [Atom.str i₁.name.data], i₁),
          (p ++ [Atom.str i₂.name.data], i₂)].map (·.1)) then
        pure ((List.insertionSort keyedLe [(p ++ [Atom.str i₁.name.data], i₁),
          (p ++ [Atom.str i₂.name.data], i₂)]).map (·.2))
      else throw SErr.typeErr) = _
  have hpc : pairsComparable ([(p ++ [Atom.str i₁.name.data], i₁),
      (p ++ [Atom.str i₂.name.data], i₂)].map (·.1)) = true := by
    simp [pairsComparable, hcomparable]
  rw [if_pos hpc]
  have hins : List.insertionSort keyedLe [(p ++ [Atom.str i₁.name.data], i₁),
      (p ++ [Atom.str i₂.name.data], i₂)] =
      if strLt i₂.name.data i₁.name.data then
        [(p ++ [Atom.str i₂.name.data], i₂), (p ++ [Atom.str i₁.name.data], i₁)]
      else
        [(p ++ [Atom.str i₁.name.data], i₁), (p ++ [Atom.str i₂.name.data], i₂)] := by
    show List.orderedInsert keyedLe _ (List.orderedInsert keyedLe _ []) = _
    show List.orderedInsert keyedLe (p ++ [Atom.str i₁.name.data], i₁)
      [(p ++ [Atom.str i₂.name.data], i₂)] = _
    rw [List.orderedInsert]
    by_cases hlt : strLt i₂.name.data i₁.name.data = true
    · rw [if_neg, if_pos hlt]
      · rfl
      · show ¬ keyedLe _ _
        unfold keyedLe
        rw [hkeyLt, hlt]
        simp
    · have hlt' : strLt i₂.name.data i₁.name.data = false := by
        cases hv : strLt i₂.name.data i₁.name.data with
        | false => rfl
        | true => exact absurd hv hlt
      rw [if_pos, if_neg (by simp [hlt'])]
      show keyedLe _ _
      unfold keyedLe
      rw [hkeyLt, hlt']
  rw [hins]
  by_cases hlt : strLt i₂.name.data i₁.name.data = true
  · rw [if_pos hlt, if_pos hlt]
    rfl
  · have hlt' : strLt i₂.name.data i₁.name.data = false := by
      cases hv : strLt i₂.name.data i₁.name.data with
      | false => rfl
      | true => exact absurd hv hlt
    rw [if_neg (by simp [hlt']), if_neg (by simp [hlt'])]
    rfl

/-- Witness for the amended C1: two records with identical URL and
coordinate fields and names `"b"`, `"a"` come out name-sorted. -/
theorem place_sort_amended_witness :
    sortShard [⟨"sky", "b", some "x", none, some "y", none, none, none, none⟩,
               ⟨"sky", "a", some "x", none, some "y", none, none, none, none⟩] =
      .ok [⟨"sky", "a", some "x", none, some "y", none, none, none, none⟩,
           ⟨"sky", "b", some "x", none, some "y", none, none, none, none⟩] := by
  have h := place_sort_amended.2
    ⟨"sky", "b", some "x", none, some "y", none, none, none, none⟩
    ⟨"sky", "a", some "x", none, some "y", none, none, none, none⟩
    rfl rfl rfl rfl rfl rfl rfl
    ⟨fun h => Bool.noConfusion h, fun h => Bool.noConfusion h⟩
  rw [h]
  rfl

/-- Strict URL precedence, with equality as the reflexive case; the
antisymmetric order used to show sorted shard members are unique. -/
def urlStrict (a b : ImageSet) : Prop :=
  strLt a.url.data b.url.data = true ∨ a = b

instance : IsAntisymm ImageSet urlStrict :=
  ⟨fun a b hab hba => by
    rcases hab with hab | hab
    · rcases hba with hba | hba
      · exact absurd hba (by simp [strLt_strictOrd.asymm hab])
      · exact hba.symm
    · exact hab⟩

theorem sorted_urlStrict_of_sorted_nodup {l : List ImageSet}
    (hs : List.Sorted urlLe l) (hn : (l.map (fun s => s.url)).Nodup) :
    List.Sorted urlStrict l := by
  have hne : l.Pairwise (fun a b => a.url ≠ b.url) := by
    have := hn
    rw [List.Nodup, List.pairwise_map] at this
    exact this
  have hcomb := List.Pairwise.and hs hne
  refine hcomb.imp ?_
  intro a b ⟨hle, hneq⟩
  left
  cases hv : strLt a.url.data b.url.data with
  | true => rfl
  | false =>
    exact absurd (String.ext (strLt_strictOrd.conn _ _ hv hle)) hneq

theorem sorted_nodup_url_unique {l₁ l₂ : List ImageSet} (hp : l₁.Perm l₂)
    (hs₁ : List.Sorted urlLe l₁) (hs₂ : List.Sorted urlLe l₂)
    (hn : (l₁.map (fun s => s.url)).Nodup) : l₁ = l₂ := by
  have hn₂ : (l₂.map (fun s => s.url)).Nodup :=
    ((hp.map (fun s => s.url)).nodup_iff).mp hn
  exact List.eq_of_perm_of_sorted hp
    (sorted_urlStrict_of_sorted_nodup hs₁ hn)
    (sorted_urlStrict_of_sorted_nodup hs₂ hn₂)

theorem insertionSort_urlLe_eq_of_perm {l₁ l₂ : List ImageSet} (hp : l₁.Perm l₂)
    (hn : (l₁.map (fun s => s.url)).Nodup) :
    List.insertionSort urlLe l₁ = List.insertionSort urlLe l₂ := by
  have hperm : (List.insertionSort urlLe l₁).Perm (List.insertionSort urlLe l₂) :=
    ((List.perm_insertionSort urlLe l₁).trans hp).trans
      (List.perm_insertionSort urlLe l₂).symm
  have hnsort : ((List.insertionSort urlLe l₁).map (fun s => s.url)).Nodup :=
    (((List.perm_insertionSort urlLe l₁).map (fun s => s.url)).nodup_iff).mpr hn
  exact sorted_nodup_url_unique hperm
    (List.sorted_insertionSort urlLe l₁) (List.sorted_insertionSort urlLe l₂) hnsort

theorem lookupG_map {β γ : Type} (f : String → β → γ) :
    ∀ (l : List (String × β)) (k : String),
      lookupG (l.map (fun p => (p.1, f p.1 p.2))) k = (lookupG l k).map (f k) := by
  intro l
  induction l with
  | nil => intro k; rfl
  | cons p rest ih =>
    intro k
    obtain ⟨k', v⟩ := p
    by_cases hk : k' = k
    · subst hk
      simp [lookupG]
    · simp [lookupG, hk, ih]

/-- **C7.** The imageset rewrite is a deterministic function of the held
*set* of imagesets: each shard's members are sorted by `url` (ascending,
case-sensitive, by code point) before serialization, so any two stores
holding the same imagesets — in particular the same store twice in
succession — produce byte-identical files for every shard name, whatever
the serializer. -/
theorem imagesetRewrite_deterministic :
    ∀ (β : Type) (serialize : String → List ImageSet → β) (l₁ l₂ : List ImageSet),
      l₁.Perm l₂ → (l₁.map (fun s => s.url)).Nodup →
      ∀ k, lookupG (rewriteFilesWith serialize l₁) k =
        lookupG (rewriteFilesWith serialize l₂) k := by
  intro β serialize l₁ l₂ hp hn k
  have hre : ∀ l : List ImageSet, rewriteFilesWith serialize l =
      (groupFold imagesetShardKey l).map
        (fun p => (p.1, serialize p.1 (List.insertionSort urlLe p.2))) := fun _ => rfl
  rw [hre, hre, lookupG_map (fun k g => serialize k (List.insertionSort urlLe g)),
    lookupG_map (fun k g => serialize k (List.insertionSort urlLe g))]
  have hg₁ := lookupG_groupFold imagesetShardKey l₁ [] k
  have hg₂ := lookupG_groupFold imagesetShardKey l₂ [] k
  have hfp : (l₁.filter (fun s => imagesetShardKey s == k)).Perm
      (l₂.filter (fun s => imagesetShardKey s == k)) := hp.filter _
  cases hf₁ : l₁.filter (fun s => imagesetShardKey s == k) with
  | nil =>
    have hf₂ : l₂.filter (fun s => imagesetShardKey s == k) = [] := by
      rw [hf₁] at hfp
      exact hfp.symm.eq_nil
    rw [hf₁] at hg₁
    rw [hf₂] at hg₂
    show (lookupG (groupFold imagesetShardKey l₁) k).map _ =
      (lookupG (groupFold imagesetShardKey l₂) k).map _
    rw [show lookupG (groupFold imagesetShardKey l₁) k = none from hg₁,
      show lookupG (groupFold imagesetShardKey l₂) k = none from hg₂]
  | cons z zs =>
    rw [hf₁] at hfp hg₁
    cases hf₂ : l₂.filter (fun s => imagesetShardKey s == k) with
    | nil =>
      rw [hf₂] at hfp
      exact absurd hfp.eq_nil (by simp)
    | cons w ws =>
      rw [hf₂] at hfp hg₂
      show (lookupG (groupFold imagesetShardKey l₁) k).map _ =
        (lookupG (groupFold imagesetShardKey l₂) k).map _
      rw [show lookupG (groupFold imagesetShardKey l₁) k = some (z :: zs) from hg₁,
        show lookupG (groupFold imagesetShardKey l₂) k = some (w :: ws) from hg₂]
      have hnf : ((z :: zs).map (fun s => s.url)).Nodup := by
        rw [← hf₁]
        exact ((List.filter_sublist l₁).map (fun s => s.url)).nodup hn
      simp only [Option.map_some']
      rw [insertionSort_urlLe_eq_of_perm hfp hnf]

/-- Witness for C7: the same two imagesets inserted in either order give
the same shard file for key `"sky"`, with members URL-sorted. -/
theorem imagesetRewrite_deterministic_witness :
    lookupG (rewriteFilesWith (fun _ g => g)
        [⟨"a", "Sky", none, none⟩, ⟨"b", "Sky", none, none⟩]) "sky" =
      lookupG (rewriteFilesWith (fun _ g => g)
        [⟨"b", "Sky", none, none⟩, ⟨"a", "Sky", none, none⟩]) "sky" ∧
    lookupG (rewriteFilesWith (fun _ g => g)
        [⟨"b", "Sky", none, none⟩, ⟨"a", "Sky", none, none⟩]) "sky" =
      some [⟨"a", "Sky", none, none⟩, ⟨"b", "Sky", none, none⟩] := by
  refine ⟨?_, by rfl⟩
  exact imagesetRewrite_deterministic _ (fun _ g => g)
    [⟨"a", "Sky", none, none⟩, ⟨"b", "Sky", none, none⟩]
    [⟨"b", "Sky", none, none⟩, ⟨"a", "Sky", none, none⟩]
    (List.Perm.swap _ _ _) (by simp) "sky"

/-- **C2 (evidence of the code's divergence).** In the directory swap of
`ImagesetDatabase.rewrite`, an I/O failure at the second rename leaves
*no* directory at the catalog path — the old catalog sits displaced at
the `.old` sibling — even though the error is surfaced; only the
failure-free run replaces the directory wholly.  The claim's guarantee
"on failure the old directory is left untouched at the target path"
therefore does not hold of the code. -/
theorem atomicSwap_step2_failure :
    atomicSwap ⟨some 0, none, some 1⟩ (some 2) = (⟨none, some 0, some 1⟩, true) ∧
    (atomicSwap ⟨some 0, none, some 1⟩ (some 2)).1.target = none ∧
    (atomicSwap ⟨some 0, none, some 1⟩ (some 2)).2 = true ∧
    atomicSwap ⟨some 0, none, some 1⟩ none = (⟨some 1, none, none⟩, false) :=
  ⟨rfl, rfl, rfl, rfl⟩

end Cattool
